import Mathlib

/-!
# hackrf_tx_opt: transmit callback, argument checks and `u64toa`

A shallow embedding of `host/hackrf-tools/src/hackrf_tx_opt.c`.

* Bytes are natural numbers; a `uint8_t` store keeps the value modulo 256.
* `size_t` and `uint64_t` are natural numbers below `2 ^ 64`, `uint32_t` below
  `2 ^ 32`; the arithmetic of the source is written with the explicit modulus
  wherever the C operation could wrap.
* The `FILE*` stream is a byte list together with a read position; `fread`
  returns the bytes between the position and the end, at most `n` of them.
* The globals read or written by `tx_callback` are gathered in `Globals`.
-/

namespace HackrfTx

/-! ## The stream -/

/-- A stdio input stream over a regular file: its content and the read offset. -/
structure FILE where
  data : List Nat
  pos : Nat
deriving DecidableEq, Repr

/-- The call `fread(ptr, 1, n, fd)`: the bytes obtained and the stream afterwards. -/
def fread (n : Nat) (fd : FILE) : List Nat × FILE :=
  let got := (fd.data.drop fd.pos).take n
  (got, { fd with pos := fd.pos + got.length })

/-- The call `rewind(fd)`. -/
def rewind (fd : FILE) : FILE := { fd with pos := 0 }

/-- Storing `src` at `ptr + off` (the destination of an `fread`). -/
def store (buf : List Nat) (off : Nat) (src : List Nat) : List Nat :=
  buf.take off ++ src ++ buf.drop (off + src.length)

/-! ## Globals and the transfer descriptor -/

/-- The enum `transceiver_mode_t`. -/
inductive transceiver_mode_t where
  | TRANSCEIVER_MODE_OFF
  | TRANSCEIVER_MODE_RX
  | TRANSCEIVER_MODE_TX
  | TRANSCEIVER_MODE_SS
deriving DecidableEq, Repr

open transceiver_mode_t

/-- The process-wide variables used by `tx_callback`. `fd = none` is `fd == NULL`. -/
structure Globals where
  fd : Option FILE
  byte_count : Nat
  transceiver_mode : transceiver_mode_t
  amplitude : Nat
  limit_num_samples : Bool
  bytes_to_xfer : Nat
  repeat_ : Bool
deriving DecidableEq, Repr

/-- The fields of `hackrf_transfer` the callback uses. -/
structure hackrf_transfer where
  buffer : List Nat
  valid_length : Nat
deriving DecidableEq, Repr

/-- What one call of `tx_callback` leaves behind: the return value, the globals,
the buffer, and (for the statements below) the locals `bytes_to_read` and
`bytes_read` together with the bytes the call took from the stream, in the order
of the `fread` calls. A local the taken branch never assigns appears as 0. -/
structure Out where
  ret : Int
  g : Globals
  buffer : List Nat
  bytes_to_read : Nat
  bytes_read : Nat
  taken : List Nat
deriving DecidableEq, Repr

/-- The block shared by both transmit branches:
`bytes_to_read = valid_length; if (limit_num_samples) { if (bytes_to_read >=
bytes_to_xfer) bytes_to_read = bytes_to_xfer; bytes_to_xfer -= bytes_to_read; }`.
Returns `bytes_to_read` and the new `bytes_to_xfer`; the subtraction is the
unsigned one of `size_t`. -/
def limit_step (limit_num_samples : Bool) (bytes_to_xfer valid_length : Nat) : Nat × Nat :=
  if limit_num_samples then
    let bytes_to_read := if valid_length ≥ bytes_to_xfer then bytes_to_xfer else valid_length
    (bytes_to_read, (bytes_to_xfer + 2 ^ 64 - bytes_to_read) % 2 ^ 64)
  else
    (valid_length, bytes_to_xfer)

/-- The loop `for (i = 0; i < bytes_to_read; i++) transfer->buffer[i] = amplitude;`
(`buffer` is `uint8_t*`, so the stored value is `amplitude` modulo 256). -/
def cw_fill (amplitude bytes_to_read : Nat) (buffer : List Nat) : List Nat :=
  (List.range bytes_to_read).foldl (fun b i => b.set i (amplitude % 256)) buffer

/-- The function `tx_callback`. -/
def tx_callback (g : Globals) (transfer : hackrf_transfer) : Out :=
  match g.fd with
  | some fd =>
    let byte_count := (g.byte_count + transfer.valid_length) % 2 ^ 32
    let lim := limit_step g.limit_num_samples g.bytes_to_xfer transfer.valid_length
    let bytes_to_read := lim.1
    let bytes_to_xfer := lim.2
    let r1 := fread bytes_to_read fd
    let bytes_read := r1.1.length
    let buffer1 := store transfer.buffer 0 r1.1
    let g1 : Globals := { g with fd := some r1.2, byte_count := byte_count,
                                 bytes_to_xfer := bytes_to_xfer }
    if g.limit_num_samples && bytes_to_xfer == 0 then
      ⟨-1, g1, buffer1, bytes_to_read, bytes_read, r1.1⟩
    else if bytes_read ≠ bytes_to_read then
      if g.repeat_ then
        let r2 := fread (bytes_to_read - bytes_read) (rewind r1.2)
        ⟨0, { g1 with fd := some r2.2 }, store buffer1 bytes_read r2.1,
          bytes_to_read, bytes_read, r1.1 ++ r2.1⟩
      else
        ⟨-1, g1, buffer1, bytes_to_read, bytes_read, r1.1⟩
    else
      ⟨0, g1, buffer1, bytes_to_read, bytes_read, r1.1⟩
  | none =>
    if g.transceiver_mode = TRANSCEIVER_MODE_SS then
      let byte_count := (g.byte_count + transfer.valid_length) % 2 ^ 32
      let lim := limit_step g.limit_num_samples g.bytes_to_xfer transfer.valid_length
      let bytes_to_read := lim.1
      let bytes_to_xfer := lim.2
      let g1 : Globals := { g with byte_count := byte_count, bytes_to_xfer := bytes_to_xfer }
      let buffer1 := cw_fill g.amplitude bytes_to_read transfer.buffer
      if g.limit_num_samples && bytes_to_xfer == 0 then
        ⟨-1, g1, buffer1, bytes_to_read, 0, []⟩
      else
        ⟨0, g1, buffer1, bytes_to_read, 0, []⟩
    else
      ⟨-1, g, transfer.buffer, 0, 0, []⟩

/-- Successive calls of `tx_callback`, one per transfer handed in by the device
library, each on the globals left by the previous call. -/
def tx_run : Globals → List hackrf_transfer → List Out
  | _, [] => []
  | g, t :: ts => tx_callback g t :: tx_run (tx_callback g t).g ts

/-- The globals after the calls of `tx_run`. -/
def tx_after : Globals → List hackrf_transfer → Globals
  | g, [] => g
  | g, t :: ts => tx_after (tx_callback g t).g ts

/-- Start of a file transmission: stream at offset 0, counters as set by `main`. -/
def tx_start (data : List Nat) (limit : Option Nat) (rep : Bool) : Globals :=
  { fd := some ⟨data, 0⟩, byte_count := 0, transceiver_mode := TRANSCEIVER_MODE_TX,
    amplitude := 0, limit_num_samples := limit.isSome, bytes_to_xfer := limit.getD 0,
    repeat_ := rep }

/-- The bound of a transmission without repeat: `min(L, N)` for a file of `L`
bytes under a limit of `N` bytes, `L` when no limit is set. -/
def xfer_bound (L : Nat) (limit : Option Nat) : Nat :=
  match limit with
  | none => L
  | some N => min L N

/-- The number of `B`-byte requests that lie wholly inside the file and strictly
before the end of the limit. -/
def full_buffers (B L : Nat) (limit : Option Nat) : Nat :=
  match limit with
  | none => L / B
  | some N => min (L / B) ((N - 1) / B)

/-- The decimal digits of `val`, least significant first, with the single digit
0 for `val = 0`. -/
def dec_digits (val : Nat) : List Nat := if val = 0 then [0] else Nat.digits 10 val

/-- The bytes `k = 0 .. n - 1` of the endless cyclic repetition of a file, read
from offset `p`: byte `k` is file byte `(p + k) mod L`. -/
def cyclic_bytes (data : List Nat) (p n : Nat) : List Nat :=
  (List.range n).map (fun k => data.getD ((p + k) % data.length) 0)

/-! ## Argument checks of `main` -/

/-- The macro `FREQ_MIN_HZ`. -/
def FREQ_MIN_HZ : Int := 0

/-- The macro `FREQ_MAX_HZ`. -/
def FREQ_MAX_HZ : Int := 7250000000

/-- The value of `EXIT_FAILURE`. -/
def EXIT_FAILURE : Nat := 1

/-- The globals of `main` once the `getopt` loop has ended without an error:
`freq_hz` is `int64_t`, `amp_enable` and `antenna_enable` are `uint32_t`, and
`path` is the argument of `-t` (`none` for `NULL`). -/
structure Options where
  freq_hz : Int
  amp : Bool
  amp_enable : Nat
  antenna : Bool
  antenna_enable : Nat
  path : Option String
deriving DecidableEq, Repr

/-- Where `main` stands after the checks that follow the `getopt` loop: it has
returned with an exit code before any device call, or it goes on to call
`hackrf_init()`, `hackrf_open_by_serial()` and later `hackrf_set_freq(device, freq_hz)`. -/
inductive Checked where
  | returned (exit_code : Nat)
  | calls_hackrf_init
deriving DecidableEq, Repr

/-- The statements of `main` between the `getopt` loop and `hackrf_init()`. -/
def main_checks (o : Options) : Checked :=
  if o.freq_hz > FREQ_MAX_HZ then
    Checked.returned EXIT_FAILURE
  else if o.amp && decide (o.amp_enable > 1) then
    Checked.returned EXIT_FAILURE
  else if o.antenna && decide (o.antenna_enable > 1) then
    Checked.returned EXIT_FAILURE
  else if o.path = none then
    Checked.returned EXIT_FAILURE
  else
    Checked.calls_hackrf_init

/-- The argument `hackrf_set_freq` receives: `freq_hz` converted to `uint64_t`. -/
def set_freq_arg (freq_hz : Int) : Nat := (freq_hz % 2 ^ 64).toNat

/-! ## `stringrev` and `u64toa` -/

/-- The macro `U64TOA_MAX_DIGIT`. -/
def U64TOA_MAX_DIGIT : Nat := 31

/-- The macro `BASE` local to `u64toa`. -/
def BASE : Nat := 10

/-- The library call `strlen`: the number of characters before the first NUL. -/
def strlen (str : List Nat) : Nat := (str.takeWhile (fun c => c != 0)).length

/-- The C string a `char` array holds: its characters before the first NUL. -/
def c_str (str : List Nat) : List Nat := str.takeWhile (fun c => c != 0)

/-- The body of the `for` loop of `stringrev`, with `p1` and `p2` as offsets into
`str`: `*p1 ^= *p2; *p2 ^= *p1; *p1 ^= *p2;`. -/
def xor_swap (str : List Nat) (p1 p2 : Nat) : List Nat :=
  let s1 := str.set p1 (str.getD p1 0 ^^^ str.getD p2 0)
  let s2 := s1.set p2 (s1.getD p2 0 ^^^ s1.getD p1 0)
  s2.set p1 (s2.getD p1 0 ^^^ s2.getD p2 0)

/-- The `for` loop of `stringrev`: while `p2 > p1`, the body, then `++p1, --p2`.
The first argument bounds the number of rounds; `stringrev` passes `strlen str`,
which is never used up since `p2 - p1` shrinks by two each round. -/
def stringrev_loop : Nat → List Nat → Nat → Nat → List Nat
  | 0, str, _, _ => str
  | fuel + 1, str, p1, p2 =>
    if p2 > p1 then stringrev_loop fuel (xor_swap str p1 p2) (p1 + 1) (p2 - 1)
    else str

/-- The function `stringrev` on a non-null pointer. -/
def stringrev (str : List Nat) : List Nat :=
  if str.getD 0 0 = 0 then str
  else stringrev_loop (strlen str) str 0 (strlen str - 1)

/-- The `do ... while ((sum > 0) && (pos < max_len))` loop of `u64toa`; the
result is `(sum, pos, data)` at loop exit. The body raises `pos` by one and the
loop stops at `pos = max_len`, so `max_len` rounds of fuel from `pos = 0` are
never used up. -/
def u64toa_loop : Nat → Nat → Nat → List Nat → Nat × Nat × List Nat
  | 0, sum, pos, data => (sum, pos, data)
  | fuel + 1, sum, pos, data =>
    let digit := sum % BASE
    let data1 := data.set pos (digit + 48)
    let pos1 := pos + 1
    let sum1 := sum / BASE
    if sum1 > 0 ∧ pos1 < U64TOA_MAX_DIGIT then u64toa_loop fuel sum1 pos1 data1
    else (sum1, pos1, data1)

/-- The function `u64toa`; `data` is `str->data` on entry, `none` is the `NULL`
return, and `some d` is `str->data` on return (the returned pointer is to it). -/
def u64toa (val : Nat) (data : List Nat) : Option (List Nat) :=
  let r := u64toa_loop U64TOA_MAX_DIGIT val 0 data
  let sum := r.1
  let pos := r.2.1
  if pos = U64TOA_MAX_DIGIT ∧ sum > 0 then none
  else some (stringrev (r.2.2.set pos 0))

/-- Reading a string of decimal digit characters as a number. -/
def read_decimal (s : List Nat) : Nat := s.foldl (fun acc c => 10 * acc + (c - 48)) 0

/-! ## One call of `tx_callback` -/

theorem limit_step_limited (btx vl : Nat) (h : btx < 2 ^ 64) :
    limit_step true btx vl = (min vl btx, btx - min vl btx) := by
  unfold limit_step
  simp only [if_true, ge_iff_le]
  split
  · rename_i h1
    rw [Nat.min_eq_right h1]
    simp
  · rename_i h1
    have h2 : vl ≤ btx := by omega
    rw [Nat.min_eq_left h2]
    simp
    omega

theorem limit_step_unlimited (btx vl : Nat) : limit_step false btx vl = (vl, btx) := by
  simp [limit_step]

theorem cw_fill_eq (a : Nat) (buf : List Nat) :
    ∀ n, n ≤ buf.length → cw_fill a n buf = List.replicate n (a % 256) ++ buf.drop n := by
  intro n
  induction n with
  | zero => intro _; simp [cw_fill]
  | succ n ih =>
    intro h
    have ih1 := ih (by omega)
    unfold cw_fill at ih1 ⊢
    rw [List.range_succ, List.foldl_append, ih1]
    simp only [List.foldl_cons, List.foldl_nil]
    apply List.ext_getElem
    · simp; omega
    · intro i h1 h2
      simp only [List.getElem_set, List.getElem_append, List.length_replicate,
        List.getElem_replicate, List.getElem_drop]
      by_cases hi : i < n
      · have : ¬ n = i := by omega
        have : i < n + 1 := by omega
        simp [*]
      · by_cases hi2 : i = n
        · subst hi2; simp
        · have h3 : ¬ n = i := by omega
          have h4 : ¬ i < n + 1 := by omega
          simp only [h3, h4, hi, if_false, dite_false]
          congr 1
          omega

/-- C6. With a limit active, in file mode and in continuous-wave mode, the
requested count is `min(valid_length, bytes_to_xfer)`, the counter afterwards is
the counter before minus the requested count as integers (no unsigned
wrap-around, hence no increase), and a counter of 0 after the call makes the call
return -1; with no limit the counter is unchanged and the requested count is
`valid_length`. -/
theorem limiter_contract (g : Globals) (t : hackrf_transfer)
    (hmode : g.fd.isSome = true ∨ g.transceiver_mode = TRANSCEIVER_MODE_SS)
    (hsz : g.bytes_to_xfer < 2 ^ 64) :
    (g.limit_num_samples = true →
      (tx_callback g t).bytes_to_read = min t.valid_length g.bytes_to_xfer ∧
      (((tx_callback g t).g.bytes_to_xfer : Int)
          = (g.bytes_to_xfer : Int) - ((tx_callback g t).bytes_to_read : Int)) ∧
      (tx_callback g t).g.bytes_to_xfer ≤ g.bytes_to_xfer ∧
      ((tx_callback g t).g.bytes_to_xfer = 0 → (tx_callback g t).ret = -1)) ∧
    (g.limit_num_samples = false →
      (tx_callback g t).g.bytes_to_xfer = g.bytes_to_xfer ∧
      (tx_callback g t).bytes_to_read = t.valid_length) := by
  constructor
  · intro hl
    cases hfd : g.fd with
    | some fd =>
      simp only [tx_callback, hfd, hl, limit_step_limited _ _ hsz]
      split_ifs
      all_goals simp_all
      all_goals omega
    | none =>
      have hss : g.transceiver_mode = TRANSCEIVER_MODE_SS := by simpa [hfd] using hmode
      simp only [tx_callback, hfd, hl, hss, limit_step_limited _ _ hsz]
      split_ifs
      all_goals simp_all
      all_goals omega
  · intro hl
    cases hfd : g.fd with
    | some fd =>
      simp only [tx_callback, hfd, hl, limit_step_unlimited]
      split_ifs
      all_goals simp_all
    | none =>
      have hss : g.transceiver_mode = TRANSCEIVER_MODE_SS := by simpa [hfd] using hmode
      simp only [tx_callback, hfd, hl, hss, limit_step_unlimited]
      split_ifs
      all_goals simp_all

/-- C6, at a limit of 100 bytes and a request of 256 on a 3-byte file. -/
theorem limiter_contract_witness :
    ((tx_start [1, 2, 3] (some 100) false).limit_num_samples = true →
      (tx_callback (tx_start [1, 2, 3] (some 100) false) ⟨[], 256⟩).bytes_to_read
        = min 256 (tx_start [1, 2, 3] (some 100) false).bytes_to_xfer ∧
      (((tx_callback (tx_start [1, 2, 3] (some 100) false) ⟨[], 256⟩).g.bytes_to_xfer : Int)
          = ((tx_start [1, 2, 3] (some 100) false).bytes_to_xfer : Int)
            - ((tx_callback (tx_start [1, 2, 3] (some 100) false) ⟨[], 256⟩).bytes_to_read : Int)) ∧
      (tx_callback (tx_start [1, 2, 3] (some 100) false) ⟨[], 256⟩).g.bytes_to_xfer
        ≤ (tx_start [1, 2, 3] (some 100) false).bytes_to_xfer ∧
      ((tx_callback (tx_start [1, 2, 3] (some 100) false) ⟨[], 256⟩).g.bytes_to_xfer = 0 →
        (tx_callback (tx_start [1, 2, 3] (some 100) false) ⟨[], 256⟩).ret = -1)) ∧
    ((tx_start [1, 2, 3] (some 100) false).limit_num_samples = false →
      (tx_callback (tx_start [1, 2, 3] (some 100) false) ⟨[], 256⟩).g.bytes_to_xfer
        = (tx_start [1, 2, 3] (some 100) false).bytes_to_xfer ∧
      (tx_callback (tx_start [1, 2, 3] (some 100) false) ⟨[], 256⟩).bytes_to_read = 256) :=
  limiter_contract (tx_start [1, 2, 3] (some 100) false) ⟨[], 256⟩
    (Or.inl rfl) (by simp [tx_start])

theorem repeat_call (g : Globals) (t : hackrf_transfer) (h1 : g.fd.isSome = true)
    (h2 : g.repeat_ = true) (h3 : g.limit_num_samples = false) :
    (tx_callback g t).ret = 0 ∧ (tx_callback g t).g.fd.isSome = true ∧
      (tx_callback g t).g.repeat_ = true ∧ (tx_callback g t).g.limit_num_samples = false := by
  cases hfd : g.fd with
  | none => simp [hfd] at h1
  | some fd =>
    simp only [tx_callback, hfd, h2, h3]
    split_ifs
    all_goals simp_all

/-- C4. With repeat enabled, no limit and a file handle present, `tx_callback`
returns 0 for every transfer, and so does every call of every sequence of calls. -/
theorem repeat_never_stops (g : Globals) (h1 : g.fd.isSome = true) (h2 : g.repeat_ = true)
    (h3 : g.limit_num_samples = false) :
    (∀ t, (tx_callback g t).ret = 0) ∧ ∀ ts, ∀ o ∈ tx_run g ts, o.ret = 0 := by
  refine ⟨fun t => (repeat_call g t h1 h2 h3).1, ?_⟩
  intro ts
  induction ts generalizing g with
  | nil => simp [tx_run]
  | cons t ts ih =>
    intro o ho
    simp only [tx_run, List.mem_cons] at ho
    have hc := repeat_call g t h1 h2 h3
    rcases ho with ho | ho
    · rw [ho]; exact hc.1
    · exact ih _ hc.2.1 hc.2.2.1 hc.2.2.2 o ho

/-- C4, on a 10-byte file. -/
theorem repeat_never_stops_witness :
    (∀ t, (tx_callback (tx_start (List.range 10) none true) t).ret = 0) ∧
      ∀ ts, ∀ o ∈ tx_run (tx_start (List.range 10) none true) ts, o.ret = 0 :=
  repeat_never_stops (tx_start (List.range 10) none true) rfl rfl rfl

/-- C7, as the code has it: in continuous-wave mode the call stores the amplitude
byte in the first `want` positions of the buffer, `want` being
`min(valid_length, bytes_to_xfer)` under a limit and `valid_length` otherwise,
leaves the positions from `want` on as they were, takes nothing from a file, and
returns -1 exactly when a limit is active and the counter is 0 after the call,
0 otherwise. -/
theorem cw_contract (g : Globals) (t : hackrf_transfer) (hfd : g.fd = none)
    (hss : g.transceiver_mode = TRANSCEIVER_MODE_SS) (hsz : g.bytes_to_xfer < 2 ^ 64)
    (hlen : t.valid_length ≤ t.buffer.length) :
    (tx_callback g t).buffer
        = List.replicate (if g.limit_num_samples then min t.valid_length g.bytes_to_xfer
                          else t.valid_length) (g.amplitude % 256)
          ++ t.buffer.drop (if g.limit_num_samples then min t.valid_length g.bytes_to_xfer
                            else t.valid_length) ∧
      (tx_callback g t).g.fd = none ∧ (tx_callback g t).taken = [] ∧
      ((tx_callback g t).ret = -1 ↔
        (g.limit_num_samples = true ∧ (tx_callback g t).g.bytes_to_xfer = 0)) ∧
      ((tx_callback g t).ret = -1 ∨ (tx_callback g t).ret = 0) := by
  cases hl : g.limit_num_samples with
  | true =>
    have hle : min t.valid_length g.bytes_to_xfer ≤ t.buffer.length :=
      le_trans (Nat.min_le_left _ _) hlen
    simp only [tx_callback, hfd, hl, hss, limit_step_limited _ _ hsz, if_true,
      cw_fill_eq _ _ _ hle]
    split_ifs
    all_goals simp_all
  | false =>
    simp only [tx_callback, hfd, hl, hss, limit_step_unlimited, if_true,
      cw_fill_eq _ _ _ hlen]
    simp

/-- C7 as the code has it, at a limit of 2 bytes and a request of 4. -/
theorem cw_contract_witness :
    (tx_callback ⟨none, 0, TRANSCEIVER_MODE_SS, 5, true, 2, false⟩ ⟨[9, 9, 9, 9], 4⟩).buffer
        = List.replicate (if true then min 4 2 else 4) (5 % 256)
          ++ [9, 9, 9, 9].drop (if true then min 4 2 else 4) ∧
      (tx_callback ⟨none, 0, TRANSCEIVER_MODE_SS, 5, true, 2, false⟩ ⟨[9, 9, 9, 9], 4⟩).g.fd
        = none ∧
      (tx_callback ⟨none, 0, TRANSCEIVER_MODE_SS, 5, true, 2, false⟩ ⟨[9, 9, 9, 9], 4⟩).taken
        = [] ∧
      ((tx_callback ⟨none, 0, TRANSCEIVER_MODE_SS, 5, true, 2, false⟩ ⟨[9, 9, 9, 9], 4⟩).ret = -1 ↔
        (true = true ∧
          (tx_callback ⟨none, 0, TRANSCEIVER_MODE_SS, 5, true, 2, false⟩
            ⟨[9, 9, 9, 9], 4⟩).g.bytes_to_xfer = 0)) ∧
      ((tx_callback ⟨none, 0, TRANSCEIVER_MODE_SS, 5, true, 2, false⟩ ⟨[9, 9, 9, 9], 4⟩).ret = -1 ∨
        (tx_callback ⟨none, 0, TRANSCEIVER_MODE_SS, 5, true, 2, false⟩ ⟨[9, 9, 9, 9], 4⟩).ret = 0) :=
  cw_contract ⟨none, 0, TRANSCEIVER_MODE_SS, 5, true, 2, false⟩ ⟨[9, 9, 9, 9], 4⟩ rfl rfl
    (by norm_num) (by decide)

/-- C7 as stated fails: with a limit of 2 bytes left and a request of 4 bytes in
continuous-wave mode at amplitude 5, the buffer `[9, 9, 9, 9]` comes back as
`[5, 5, 9, 9]`, so bytes 2 and 3 of `buffer[0 .. valid_length)` are not the
amplitude byte. -/
theorem cw_fill_stops_at_limit :
    (tx_callback ⟨none, 0, TRANSCEIVER_MODE_SS, 5, true, 2, false⟩ ⟨[9, 9, 9, 9], 4⟩).buffer
        = [5, 5, 9, 9] ∧
      ¬ (∀ i, i < 4 →
          (tx_callback ⟨none, 0, TRANSCEIVER_MODE_SS, 5, true, 2, false⟩
            ⟨[9, 9, 9, 9], 4⟩).buffer.getD i 0 = 5 % 256) := by
  refine ⟨by decide, ?_⟩
  intro h
  have h2 := h 2 (by decide)
  revert h2
  decide

/-- C8, as the code has it: a request of length 0 takes no byte from the file,
leaves the stream, the counters and the buffer as they were, and returns 0
exactly when there is a file handle or the mode is continuous-wave and it is not
the case that a limit is active with `bytes_to_xfer = 0`; otherwise it returns -1. -/
theorem zero_length_request (g : Globals) (buffer : List Nat) (hsz : g.bytes_to_xfer < 2 ^ 64)
    (hbc : g.byte_count < 2 ^ 32) :
    (tx_callback g ⟨buffer, 0⟩).taken = [] ∧
      (tx_callback g ⟨buffer, 0⟩).g = g ∧
      (tx_callback g ⟨buffer, 0⟩).buffer = buffer ∧
      ((tx_callback g ⟨buffer, 0⟩).ret = 0 ↔
        ((g.fd.isSome = true ∨ g.transceiver_mode = TRANSCEIVER_MODE_SS) ∧
          ¬ (g.limit_num_samples = true ∧ g.bytes_to_xfer = 0))) ∧
      ((tx_callback g ⟨buffer, 0⟩).ret = 0 ∨ (tx_callback g ⟨buffer, 0⟩).ret = -1) := by
  obtain ⟨fd, bc, mode, amp, lim, btx, rep⟩ := g
  simp only at hsz hbc
  have hb : (bc + 0) % 2 ^ 32 = bc := Nat.mod_eq_of_lt hbc
  have hstep : limit_step lim btx 0 = (0, btx) := by
    cases lim with
    | true => rw [limit_step_limited _ _ hsz]; simp
    | false => rw [limit_step_unlimited]
  cases fd with
  | some fd =>
    have hfr : fread 0 fd = ([], fd) := by simp [fread]
    simp only [tx_callback, hstep, hfr, hb, store]
    split_ifs
    all_goals simp_all
  | none =>
    by_cases hss : mode = TRANSCEIVER_MODE_SS
    · simp only [tx_callback, hstep, hb, hss, cw_fill]
      split_ifs
      all_goals simp_all
    · simp [tx_callback, hss]

/-- C8 as the code has it, with a file handle and no limit. -/
theorem zero_length_request_witness :
    (tx_callback (tx_start [1, 2, 3] none true) ⟨[9], 0⟩).taken = [] ∧
      (tx_callback (tx_start [1, 2, 3] none true) ⟨[9], 0⟩).g = tx_start [1, 2, 3] none true ∧
      (tx_callback (tx_start [1, 2, 3] none true) ⟨[9], 0⟩).buffer = [9] ∧
      ((tx_callback (tx_start [1, 2, 3] none true) ⟨[9], 0⟩).ret = 0 ↔
        (((tx_start [1, 2, 3] none true).fd.isSome = true ∨
            (tx_start [1, 2, 3] none true).transceiver_mode = TRANSCEIVER_MODE_SS) ∧
          ¬ ((tx_start [1, 2, 3] none true).limit_num_samples = true ∧
              (tx_start [1, 2, 3] none true).bytes_to_xfer = 0))) ∧
      ((tx_callback (tx_start [1, 2, 3] none true) ⟨[9], 0⟩).ret = 0 ∨
        (tx_callback (tx_start [1, 2, 3] none true) ⟨[9], 0⟩).ret = -1) :=
  zero_length_request (tx_start [1, 2, 3] none true) [9] (by simp [tx_start])
    (by simp [tx_start])

/-- C8 as stated fails: a request of length 0 returns -1 when a limit is active
with `bytes_to_xfer = 0` (file handle present), and also when there is no file
handle and the mode is not continuous-wave. -/
theorem zero_length_request_stops :
    (tx_callback (tx_start [1, 2, 3] (some 0) false) ⟨[9], 0⟩).ret = -1 ∧
      (tx_callback ⟨none, 0, TRANSCEIVER_MODE_TX, 0, false, 0, false⟩ ⟨[9], 0⟩).ret = -1 := by
  constructor <;> decide

/-! ## Transmission without repeat -/

theorem tx_run_append (g : Globals) (ts us : List hackrf_transfer) :
    tx_run g (ts ++ us) = tx_run g ts ++ tx_run (tx_after g ts) us := by
  induction ts generalizing g with
  | nil => simp [tx_run, tx_after]
  | cons t ts ih => simp [tx_run, tx_after, ih]

theorem fread_full (data : List Nat) (p n : Nat) (h : p + n ≤ data.length) :
    fread n ⟨data, p⟩ = ((data.drop p).take n, ⟨data, p + n⟩) := by
  simp only [fread, List.length_take, List.length_drop]
  rw [Nat.min_eq_left (by omega)]

/-- One call that goes on: the request lies inside the file and does not use up
the limit. -/
theorem continue_call (g : Globals) (data : List Nat) (p B : Nat) (buf : List Nat)
    (hfd : g.fd = some ⟨data, p⟩) (hsz : g.bytes_to_xfer < 2 ^ 64)
    (hin : p + B ≤ data.length) (hlim : g.limit_num_samples = true → B < g.bytes_to_xfer) :
    (tx_callback g ⟨buf, B⟩).ret = 0 ∧
      (tx_callback g ⟨buf, B⟩).taken = (data.drop p).take B ∧
      (tx_callback g ⟨buf, B⟩).g.fd = some ⟨data, p + B⟩ ∧
      (tx_callback g ⟨buf, B⟩).g.repeat_ = g.repeat_ ∧
      (tx_callback g ⟨buf, B⟩).g.limit_num_samples = g.limit_num_samples ∧
      (tx_callback g ⟨buf, B⟩).g.bytes_to_xfer
        = (if g.limit_num_samples then g.bytes_to_xfer - B else g.bytes_to_xfer) := by
  have hlen : ((data.drop p).take B).length = B := by
    simp only [List.length_take, List.length_drop]; omega
  cases hl : g.limit_num_samples with
  | true =>
    have hb := hlim hl
    have hmin : min B g.bytes_to_xfer = B := Nat.min_eq_left (by omega)
    simp only [tx_callback, hfd, hl, limit_step_limited _ _ hsz, hmin, fread_full _ _ _ hin,
      hlen]
    have h0 : ¬ g.bytes_to_xfer - B = 0 := by omega
    simp [h0]
  | false =>
    simp only [tx_callback, hfd, hl, limit_step_unlimited, fread_full _ _ _ hin, hlen]
    simp

/-- One call that ends a transmission without repeat: the limit is used up by
the request, or the file has fewer bytes left than requested. -/
theorem stop_call (g : Globals) (data : List Nat) (p B : Nat) (buf : List Nat)
    (hfd : g.fd = some ⟨data, p⟩) (hrep : g.repeat_ = false) (hsz : g.bytes_to_xfer < 2 ^ 64)
    (hstop : (g.limit_num_samples = true ∧ g.bytes_to_xfer ≤ B) ∨ data.length - p < B) :
    (tx_callback g ⟨buf, B⟩).ret = -1 ∧
      (tx_callback g ⟨buf, B⟩).taken
        = (data.drop p).take (if g.limit_num_samples then min (data.length - p) g.bytes_to_xfer
                              else data.length - p) := by
  cases hl : g.limit_num_samples with
  | true =>
    simp only [tx_callback, hfd, hl, hrep, limit_step_limited _ _ hsz, fread, if_true]
    by_cases hb : g.bytes_to_xfer ≤ B
    · have hmin : min B g.bytes_to_xfer = g.bytes_to_xfer := Nat.min_eq_right hb
      simp only [hmin, Nat.sub_self]
      refine ⟨by simp, ?_⟩
      simp only [Bool.true_and, beq_self_eq_true, if_true]
      rw [List.take_eq_take]
      simp only [List.length_drop]
      omega
    · have hd : data.length - p < B := by
        rcases hstop with h | h
        · exact absurd h.2 hb
        · exact h
      have hmin : min B g.bytes_to_xfer = B := Nat.min_eq_left (by omega)
      have h0 : ¬ g.bytes_to_xfer - B = 0 := by omega
      have hne : ¬ min B (data.length - p) = B := by omega
      simp only [hmin, h0, List.length_take, List.length_drop]
      simp only [Bool.true_and, beq_iff_eq, h0, if_false, ne_eq, hne, not_false_eq_true,
        if_true, Bool.false_eq_true]
      refine ⟨trivial, ?_⟩
      rw [List.take_eq_take]
      simp only [List.length_drop]
      omega
  | false =>
    have hd : data.length - p < B := by
      rcases hstop with h | h
      · rw [hl] at h; exact absurd h.1 (by simp)
      · exact h
    have hne : ¬ min B (data.length - p) = B := by omega
    simp only [tx_callback, hfd, hl, hrep, limit_step_unlimited, fread, List.length_take,
      List.length_drop]
    simp only [Bool.false_and, Bool.false_eq_true, if_false, ne_eq, hne, not_false_eq_true,
      if_true]
    refine ⟨trivial, ?_⟩
    rw [List.take_eq_take]
    simp only [List.length_drop]
    omega

/-- The first `c` calls of a transmission whose `c` requests of `B` bytes lie
inside the file and do not use up the limit. -/
theorem run_continue (data : List Nat) (B : Nat) :
    ∀ (c : Nat) (g : Globals) (p : Nat) (ts : List hackrf_transfer),
      g.fd = some ⟨data, p⟩ → g.bytes_to_xfer < 2 ^ 64 → ts.length = c →
      (∀ t ∈ ts, t.valid_length = B) → p + c * B ≤ data.length →
      (g.limit_num_samples = true → c = 0 ∨ c * B < g.bytes_to_xfer) →
      (tx_run g ts).map (fun o => o.ret) = List.replicate c 0 ∧
        (tx_run g ts).map (fun o => o.taken.length) = List.replicate c B ∧
        ((tx_run g ts).map (fun o => o.taken)).flatten = (data.drop p).take (c * B) ∧
        (tx_after g ts).fd = some ⟨data, p + c * B⟩ ∧
        (tx_after g ts).repeat_ = g.repeat_ ∧
        (tx_after g ts).limit_num_samples = g.limit_num_samples ∧
        (tx_after g ts).bytes_to_xfer
          = (if g.limit_num_samples then g.bytes_to_xfer - c * B else g.bytes_to_xfer) := by
  intro c
  induction c with
  | zero =>
    intro g p ts hfd _ hlen _ _ _
    have : ts = [] := List.length_eq_zero.mp hlen
    subst this
    simp [tx_run, tx_after, hfd]
  | succ c ih =>
    intro g p ts hfd hsz hlen hall hin hlim
    match ts, hlen with
    | t :: ts, hlen =>
      obtain ⟨buf, vl⟩ := t
      have hvl : vl = B := hall ⟨buf, vl⟩ (by simp)
      subst hvl
      have hmul : (c + 1) * vl = c * vl + vl := Nat.succ_mul c vl
      rw [hmul] at hin hlim
      have hlim1 : g.limit_num_samples = true → vl < g.bytes_to_xfer := by
        intro h
        rcases hlim h with h1 | h1
        · omega
        · omega
      obtain ⟨c1, c2, c3, c4, c5, c6⟩ :=
        continue_call g data p vl buf hfd hsz (by omega) hlim1
      have hsz1 : (tx_callback g ⟨buf, vl⟩).g.bytes_to_xfer < 2 ^ 64 := by
        rw [c6]; split <;> omega
      have hlim2 : (tx_callback g ⟨buf, vl⟩).g.limit_num_samples = true →
          c = 0 ∨ c * vl < (tx_callback g ⟨buf, vl⟩).g.bytes_to_xfer := by
        intro h
        rw [c5] at h
        rw [c6, if_pos h]
        rcases hlim h with h1 | h1
        · omega
        · right; omega
      obtain ⟨r1, r2, r3, r4, r5, r6, r7⟩ :=
        ih (tx_callback g ⟨buf, vl⟩).g (p + vl) ts c3 hsz1 (by simpa using hlen)
          (fun t ht => hall t (by simp [ht])) (by omega) hlim2
      refine ⟨?_, ?_, ?_, ?_, ?_, ?_, ?_⟩
      · simp only [tx_run, List.map_cons, r1, c1, List.replicate_succ]
      · simp only [tx_run, List.map_cons, r2, c2, List.replicate_succ, List.length_take,
          List.length_drop]
        congr 1
        omega
      · simp only [tx_run, List.map_cons, List.flatten_cons, r3, c2]
        rw [hmul, Nat.add_comm (c * vl) vl, List.take_add, List.drop_drop]
      · simp only [tx_after, r4]
        rw [hmul]
        congr 2
        omega
      · simp only [tx_after, r5, c4]
      · simp only [tx_after, r6, c5]
      · simp only [tx_after, r7, c5, c6]
        rw [hmul]
        split <;> omega

theorem full_buffers_facts (B L : Nat) (limit : Option Nat)
    (hB : 0 < B ∨ limit = some 0) :
    full_buffers B L limit * B ≤ L ∧
      (∀ N, limit = some N →
        (full_buffers B L limit = 0 ∨ full_buffers B L limit * B < N) ∧
        (N - full_buffers B L limit * B ≤ B ∨ L - full_buffers B L limit * B < B)) ∧
      (limit = none → L - full_buffers B L limit * B < B) := by
  have hdiv : ∀ x, 0 < B → x < x / B * B + B := by
    intro x hb
    have h1 := Nat.div_add_mod x B
    have h2 := Nat.mod_lt x hb
    have h3 : B * (x / B) = x / B * B := Nat.mul_comm _ _
    omega
  cases limit with
  | none =>
    simp only [full_buffers]
    refine ⟨Nat.div_mul_le_self L B, fun N h => by simp at h, fun _ => ?_⟩
    have hb : 0 < B := by
      rcases hB with h | h
      · exact h
      · simp at h
    have := hdiv L hb
    have := Nat.div_mul_le_self L B
    omega
  | some N =>
    simp only [full_buffers]
    have hL := Nat.div_mul_le_self L B
    have hN := Nat.div_mul_le_self (N - 1) B
    have hc1 : min (L / B) ((N - 1) / B) * B ≤ L / B * B :=
      Nat.mul_le_mul_right B (Nat.min_le_left _ _)
    have hc2 : min (L / B) ((N - 1) / B) * B ≤ (N - 1) / B * B :=
      Nat.mul_le_mul_right B (Nat.min_le_right _ _)
    refine ⟨by omega, ?_, fun h => by simp at h⟩
    intro N1 hN1
    have hEq : N = N1 := by simpa using hN1
    subst hEq
    by_cases hb : 0 < B
    · constructor
      · by_cases hz : N = 0
        · subst hz; left; simp
        · right; omega
      · have hdL := hdiv L hb
        have hdN := hdiv (N - 1) hb
        rcases Nat.le_total (L / B) ((N - 1) / B) with h | h
        · rw [Nat.min_eq_left h]; right; omega
        · rw [Nat.min_eq_right h]; left; omega
    · have hN0 : N = 0 := by
        rcases hB with h | h
        · exact absurd h hb
        · simpa using h
      subst hN0
      simp

/-- A transmission without repeat, from the start of the file, over exactly the
calls up to the first one that returns -1. -/
theorem no_repeat_run (data : List Nat) (B : Nat) (limit : Option Nat)
    (hB : 0 < B ∨ limit = some 0) (hN : ∀ N, limit = some N → N < 2 ^ 64)
    (ts : List hackrf_transfer) (hlen : ts.length = full_buffers B data.length limit + 1)
    (hall : ∀ t ∈ ts, t.valid_length = B) :
    (tx_run (tx_start data limit false) ts).map (fun o => o.ret)
        = List.replicate (full_buffers B data.length limit) 0 ++ [-1] ∧
      (tx_run (tx_start data limit false) ts).map (fun o => o.taken.length)
        = List.replicate (full_buffers B data.length limit) B
          ++ [xfer_bound data.length limit - full_buffers B data.length limit * B] ∧
      ((tx_run (tx_start data limit false) ts).map (fun o => o.taken)).flatten
        = data.take (xfer_bound data.length limit) := by
  obtain ⟨f1, f2, f3⟩ := full_buffers_facts B data.length limit hB
  generalize hc : full_buffers B data.length limit = c at *
  have hne : ts ≠ [] := by
    intro h; rw [h] at hlen; simp at hlen
  obtain ⟨ts1, t, rfl⟩ : ∃ ts1 t, ts = ts1 ++ [t] :=
    ⟨ts.dropLast, ts.getLast hne, (List.dropLast_append_getLast hne).symm⟩
  obtain ⟨buf, vl⟩ := t
  have hvl : vl = B := hall ⟨buf, vl⟩ (by simp)
  subst hvl
  have hlen1 : ts1.length = c := by simpa using hlen
  have hsz0 : (tx_start data limit false).bytes_to_xfer < 2 ^ 64 := by
    cases limit with
    | none => simp [tx_start]
    | some N => simpa [tx_start] using hN N rfl
  have hlim0 : (tx_start data limit false).limit_num_samples = true →
      c = 0 ∨ c * vl < (tx_start data limit false).bytes_to_xfer := by
    intro h
    cases limit with
    | none => simp [tx_start] at h
    | some N => simpa [tx_start] using (f2 N rfl).1
  obtain ⟨r1, r2, r3, r4, r5, r6, r7⟩ :=
    run_continue data vl c (tx_start data limit false) 0 ts1 rfl hsz0 hlen1
      (fun t ht => hall t (by simp [ht])) (by omega) hlim0
  have hsz1 : (tx_after (tx_start data limit false) ts1).bytes_to_xfer < 2 ^ 64 := by
    rw [r7]; split <;> omega
  have hstop : ((tx_after (tx_start data limit false) ts1).limit_num_samples = true ∧
        (tx_after (tx_start data limit false) ts1).bytes_to_xfer ≤ vl) ∨
      data.length - (0 + c * vl) < vl := by
    cases limit with
    | none => right; have := f3 rfl; omega
    | some N =>
      rcases (f2 N rfl).2 with h | h
      · left
        rw [r6, r7]
        simpa [tx_start] using h
      · right; omega
  obtain ⟨s1, s2⟩ :=
    stop_call (tx_after (tx_start data limit false) ts1) data (0 + c * vl) vl buf r4
      (by rw [r5]; rfl) hsz1 hstop
  rw [tx_run_append]
  simp only [tx_run, List.map_append, List.map_cons, List.map_nil, List.flatten_append,
    List.flatten_cons, List.flatten_nil, List.append_nil, r1, r2, r3, s1, s2, r6, r7,
    List.drop_zero, Nat.zero_add]
  refine ⟨trivial, ?_, ?_⟩
  · congr 2
    cases limit with
    | none => simp [tx_start, xfer_bound]
    | some N =>
      have hcN : c * vl ≤ N := by
        rcases (f2 N rfl).1 with h | h
        · rw [h]; simp
        · omega
      simp only [tx_start, xfer_bound, Option.isSome_some, Option.getD_some, if_true,
        List.length_take, List.length_drop]
      omega
  · have key : ∀ m, c * vl + m = xfer_bound data.length limit →
        List.take (c * vl) data ++ List.take m (List.drop (c * vl) data)
          = List.take (xfer_bound data.length limit) data := by
      intro m hm
      rw [← hm, List.take_add]
    apply key
    cases limit with
    | none => simp only [tx_start, xfer_bound, Option.isSome_none]; simp; omega
    | some N =>
      have hcN : c * vl ≤ N := by
        rcases (f2 N rfl).1 with h | h
        · rw [h]; simp
        · omega
      simp only [tx_start, xfer_bound, Option.isSome_some, Option.getD_some, if_true]
      omega

theorem tx_callback_repeat (g : Globals) (t : hackrf_transfer) :
    (tx_callback g t).g.repeat_ = g.repeat_ := by
  cases hfd : g.fd with
  | some fd =>
    simp only [tx_callback, hfd]
    split_ifs
    all_goals rfl
  | none =>
    by_cases hss : g.transceiver_mode = TRANSCEIVER_MODE_SS
    · simp only [tx_callback, hfd, hss, if_true]
      split_ifs
      all_goals rfl
    · simp [tx_callback, hfd, hss]

theorem no_repeat_buffer (g : Globals) (t : hackrf_transfer) (hrep : g.repeat_ = false) :
    (tx_callback g t).buffer.take (tx_callback g t).taken.length = (tx_callback g t).taken := by
  cases hfd : g.fd with
  | some fd =>
    simp only [tx_callback, hfd, hrep, Bool.false_eq_true, if_false]
    split_ifs
    all_goals simp [store]
  | none =>
    by_cases hss : g.transceiver_mode = TRANSCEIVER_MODE_SS
    · simp only [tx_callback, hfd, hss, if_true]
      split_ifs
      all_goals simp
    · simp [tx_callback, hfd, hss]

theorem no_repeat_run_buffer (ts : List hackrf_transfer) :
    ∀ g : Globals, g.repeat_ = false →
      ∀ o ∈ tx_run g ts, o.buffer.take o.taken.length = o.taken := by
  induction ts with
  | nil => intro g _ o ho; simp [tx_run] at ho
  | cons t ts ih =>
    intro g hrep o ho
    simp only [tx_run, List.mem_cons] at ho
    rcases ho with ho | ho
    · rw [ho]; exact no_repeat_buffer g t hrep
    · exact ih _ (by rw [tx_callback_repeat, hrep]) o ho

/-- C1, as the code has it: without repeat, for a buffer size `B > 0` (or a limit
of 0 bytes), a file of `L` bytes read from position 0 and any limit state, there
is a number of calls after which `tx_callback` returns -1 for the first time; the
bytes the calls up to that one took from the file, in order, are the first
`min(L, N)` bytes of the file (`L` with no limit), `min(L, N)` in number, and each
call left the bytes it took at the start of its buffer. -/
theorem no_repeat_total (data : List Nat) (B : Nat) (limit : Option Nat)
    (hB : 0 < B ∨ limit = some 0) (hN : ∀ N, limit = some N → N < 2 ^ 64) :
    ∃ n, ∀ ts : List hackrf_transfer, ts.length = n + 1 → (∀ t ∈ ts, t.valid_length = B) →
      (tx_run (tx_start data limit false) ts).map (fun o => o.ret)
          = List.replicate n 0 ++ [-1] ∧
        ((tx_run (tx_start data limit false) ts).map (fun o => o.taken)).flatten
          = data.take (xfer_bound data.length limit) ∧
        ((tx_run (tx_start data limit false) ts).map (fun o => o.taken)).flatten.length
          = xfer_bound data.length limit ∧
        ∀ o ∈ tx_run (tx_start data limit false) ts,
          o.buffer.take o.taken.length = o.taken := by
  refine ⟨full_buffers B data.length limit, ?_⟩
  intro ts hlen hall
  obtain ⟨h1, _, h3⟩ := no_repeat_run data B limit hB hN ts hlen hall
  refine ⟨h1, h3, ?_, no_repeat_run_buffer ts _ rfl⟩
  rw [h3, List.length_take]
  cases limit with
  | none => simp [xfer_bound]
  | some N => simp only [xfer_bound]; omega

/-- C1 as the code has it, on a 5-byte file with 2-byte buffers and a limit of 4. -/
theorem no_repeat_total_witness :
    ∃ n, ∀ ts : List hackrf_transfer, ts.length = n + 1 → (∀ t ∈ ts, t.valid_length = 2) →
      (tx_run (tx_start [1, 2, 3, 4, 5] (some 4) false) ts).map (fun o => o.ret)
          = List.replicate n 0 ++ [-1] ∧
        ((tx_run (tx_start [1, 2, 3, 4, 5] (some 4) false) ts).map (fun o => o.taken)).flatten
          = [1, 2, 3, 4, 5].take (xfer_bound [1, 2, 3, 4, 5].length (some 4)) ∧
        ((tx_run (tx_start [1, 2, 3, 4, 5] (some 4) false) ts).map
            (fun o => o.taken)).flatten.length
          = xfer_bound [1, 2, 3, 4, 5].length (some 4) ∧
        ∀ o ∈ tx_run (tx_start [1, 2, 3, 4, 5] (some 4) false) ts,
          o.buffer.take o.taken.length = o.taken :=
  no_repeat_total [1, 2, 3, 4, 5] 2 (some 4) (Or.inl (by decide))
    (by intro N h; cases h; norm_num)

/-- C1 as stated fails at buffer size 0: on a 1-byte file without repeat and
without limit, a call with `valid_length = 0` returns 0 and leaves the globals as
they were, so no number of calls ever returns -1 and no byte of the file is read,
while `min(L, ∞) = 1`. -/
theorem no_repeat_zero_buffer_never_stops :
    tx_callback (tx_start [7] none false) ⟨[], 0⟩
        = ⟨0, tx_start [7] none false, [], 0, 0, []⟩ ∧
      xfer_bound [7].length none = 1 ∧
      ∀ n, ∀ o ∈ tx_run (tx_start [7] none false) (List.replicate n ⟨[], 0⟩),
        o.ret = 0 ∧ o.taken = [] := by
  have h0 : tx_callback (tx_start [7] none false) ⟨[], 0⟩
      = ⟨0, tx_start [7] none false, [], 0, 0, []⟩ := by decide
  refine ⟨h0, rfl, ?_⟩
  intro n
  induction n with
  | zero => intro o ho; simp [tx_run] at ho
  | succ n ih =>
    intro o ho
    simp only [List.replicate_succ, tx_run, List.mem_cons, h0] at ho
    rcases ho with ho | ho
    · rw [ho]; exact ⟨rfl, rfl⟩
    · exact ih o ho

/-- C2, as the code has it: without repeat and with `B > 0` (or a limit of 0),
the first call that returns -1 is call number `c + 1`, where `c` is the number
of `B`-byte requests lying inside the file and strictly before the end of the
limit; each of the `c` earlier calls reads `B` bytes and returns 0, and the call
that returns -1 reads the rest, `min(L, N) - c * B` bytes, which brings the
cumulative count to the bound. That rest is 0, so that the bound was already
reached by the call before, which returned 0, exactly when the bound is the file
length (no limit, or `L < N`) and `B` divides `L`, or the limit is 0. -/
theorem no_repeat_stop_call (data : List Nat) (B : Nat) (limit : Option Nat)
    (hB : 0 < B ∨ limit = some 0) (hN : ∀ N, limit = some N → N < 2 ^ 64)
    (ts : List hackrf_transfer) (hlen : ts.length = full_buffers B data.length limit + 1)
    (hall : ∀ t ∈ ts, t.valid_length = B) :
    (tx_run (tx_start data limit false) ts).map (fun o => o.ret)
        = List.replicate (full_buffers B data.length limit) 0 ++ [-1] ∧
      (tx_run (tx_start data limit false) ts).map (fun o => o.taken.length)
        = List.replicate (full_buffers B data.length limit) B
          ++ [xfer_bound data.length limit - full_buffers B data.length limit * B] ∧
      full_buffers B data.length limit * B ≤ xfer_bound data.length limit ∧
      (full_buffers B data.length limit * B = xfer_bound data.length limit ↔
        ((limit = none ∨ ∃ N, limit = some N ∧ data.length < N) ∧ B ∣ data.length) ∨
          limit = some 0) := by
  obtain ⟨h1, h2, _⟩ := no_repeat_run data B limit hB hN ts hlen hall
  obtain ⟨f1, f2, _⟩ := full_buffers_facts B data.length limit hB
  refine ⟨h1, h2, ?_, ?_⟩
  · cases limit with
    | none => simpa [xfer_bound] using f1
    | some N =>
      have hcN : full_buffers B data.length (some N) * B ≤ N := by
        rcases (f2 N rfl).1 with h | h
        · rw [h]; simp
        · omega
      simp only [xfer_bound]; omega
  · have hdvd : data.length / B * B = data.length ↔ B ∣ data.length :=
      ⟨fun h => Dvd.intro_left _ h, fun h => Nat.div_mul_cancel h⟩
    cases limit with
    | none => simpa [xfer_bound, full_buffers] using hdvd
    | some N =>
      by_cases hz : N = 0
      · subst hz; simp [xfer_bound, full_buffers]
      · have hB0 : 0 < B := by
          rcases hB with h | h
          · exact h
          · exact absurd (by simpa using h) hz
        have hlt : full_buffers B data.length (some N) * B < N := by
          rcases (f2 N rfl).1 with h | h
          · rw [h]; simp; omega
          · exact h
        by_cases hLN : data.length < N
        · have hle : data.length / B ≤ (N - 1) / B := Nat.div_le_div_right (by omega)
          simp only [xfer_bound, full_buffers, Nat.min_eq_left hle,
            Nat.min_eq_left (Nat.le_of_lt hLN), hdvd]
          simp [hLN, hz]
        · have hmin : min data.length N = N := Nat.min_eq_right (by omega)
          simp only [xfer_bound, hmin]
          constructor
          · intro h; omega
          · intro h
            rcases h with ⟨h | ⟨N1, hN1, hlt1⟩, _⟩ | h
            · simp at h
            · have : N = N1 := by simpa using hN1
              omega
            · exact absurd (by simpa using h) hz

/-- C2 as the code has it, on the scenario of a 1000-byte limit with 256-byte
buffers and a 1000-byte file: calls 1 to 3 read 256 bytes and return 0, call 4
reads 232 bytes and returns -1. -/
theorem no_repeat_stop_call_witness :
    (tx_run (tx_start (List.replicate 1000 0) (some 1000) false)
        (List.replicate 4 ⟨List.replicate 256 0, 256⟩)).map (fun o => o.ret) = [0, 0, 0, -1] ∧
      (tx_run (tx_start (List.replicate 1000 0) (some 1000) false)
        (List.replicate 4 ⟨List.replicate 256 0, 256⟩)).map (fun o => o.taken.length)
        = [256, 256, 256, 232] := by
  have h := no_repeat_stop_call (List.replicate 1000 0) 256 (some 1000) (Or.inl (by decide))
    (by intro N h; cases h; norm_num) (List.replicate 4 ⟨List.replicate 256 0, 256⟩)
    (by rw [List.length_replicate, List.length_replicate]; decide)
    (by intro t ht; rw [List.eq_of_mem_replicate ht])
  have e1 : full_buffers 256 (List.replicate 1000 0).length (some 1000) = 3 := by
    rw [List.length_replicate]; decide
  have e2 : xfer_bound (List.replicate 1000 0).length (some 1000) = 1000 := by
    rw [List.length_replicate]; decide
  rw [e1, e2] at h
  exact ⟨h.1, h.2.1⟩

/-- C2 as stated fails: on an 8-byte file with 4-byte buffers, no repeat and no
limit, the second call brings the cumulative count to the bound 8 and returns 0;
-1 comes from the third call, which reads no byte. -/
theorem no_repeat_stop_after_bound :
    (tx_run (tx_start [0, 1, 2, 3, 4, 5, 6, 7] none false)
        (List.replicate 3 ⟨[0, 0, 0, 0], 4⟩)).map (fun o => (o.ret, o.taken.length))
        = [(0, 4), (0, 4), (-1, 0)] ∧
      xfer_bound [0, 1, 2, 3, 4, 5, 6, 7].length none = 4 + 4 := by
  constructor <;> decide

/-! ## Transmission with repeat -/

/-- C5, as the code has it: in file mode with repeat enabled, when the first read
comes back short of the requested count and the limit, if one is active, is not
used up by this call, the stream is rewound and read again from offset 0 (it
ends at offset `min(want - bytes_read, L)`), the call returns 0, and, when the
file holds at least `want - bytes_read` bytes, the buffer is the bytes of the
first read, then the first `want - bytes_read` bytes of the file in positions
`[bytes_read, want)`, then its previous content from position `want` on. -/
theorem repeat_refill (g : Globals) (t : hackrf_transfer) (data : List Nat) (p : Nat)
    (hfd : g.fd = some ⟨data, p⟩) (hrep : g.repeat_ = true)
    (hshort : (tx_callback g t).bytes_read < (tx_callback g t).bytes_to_read)
    (hlim : ¬ (g.limit_num_samples = true ∧ (tx_callback g t).g.bytes_to_xfer = 0)) :
    (tx_callback g t).ret = 0 ∧
      (tx_callback g t).g.fd
        = some ⟨data, min ((tx_callback g t).bytes_to_read - (tx_callback g t).bytes_read)
                      data.length⟩ ∧
      (tx_callback g t).taken
        = (data.drop p).take (tx_callback g t).bytes_to_read
          ++ data.take ((tx_callback g t).bytes_to_read - (tx_callback g t).bytes_read) ∧
      ((tx_callback g t).bytes_to_read - (tx_callback g t).bytes_read ≤ data.length →
        (tx_callback g t).buffer
            = (data.drop p).take (tx_callback g t).bytes_to_read
              ++ data.take ((tx_callback g t).bytes_to_read - (tx_callback g t).bytes_read)
              ++ t.buffer.drop (tx_callback g t).bytes_to_read ∧
          ((data.drop p).take (tx_callback g t).bytes_to_read).length
            = (tx_callback g t).bytes_read ∧
          (data.take ((tx_callback g t).bytes_to_read - (tx_callback g t).bytes_read)).length
            = (tx_callback g t).bytes_to_read - (tx_callback g t).bytes_read) := by
  simp only [tx_callback, hfd, hrep] at hshort hlim ⊢
  split_ifs at hshort hlim ⊢ with h1 h2
  · exfalso
    apply hlim
    simpa using h1
  · simp only [fread, rewind, List.drop_zero, List.length_take, List.length_drop, store,
      List.take_zero, List.nil_append, Nat.zero_add, true_and] at hshort ⊢
    generalize (limit_step g.limit_num_samples g.bytes_to_xfer t.valid_length).1 = w at *
    intro hle
    have hA : (List.take w (List.drop p data)).length = min w (data.length - p) := by simp
    refine ⟨?_, by omega⟩
    rw [List.take_left' hA]
    congr 1
    rw [List.drop_append_eq_append_drop, List.drop_of_length_le (by rw [hA]; omega),
      List.nil_append, hA, List.drop_drop]
    congr 1
    omega
  · simp only [] at hshort
    omega

/-- C5 as the code has it, on a 4-byte file read from offset 2 with a 4-byte buffer. -/
theorem repeat_refill_witness :
    (tx_callback ⟨some ⟨[1, 2, 3, 4], 2⟩, 0, TRANSCEIVER_MODE_TX, 0, false, 0, true⟩
        ⟨[9, 9, 9, 9, 9], 4⟩).ret = 0 ∧
      (tx_callback ⟨some ⟨[1, 2, 3, 4], 2⟩, 0, TRANSCEIVER_MODE_TX, 0, false, 0, true⟩
        ⟨[9, 9, 9, 9, 9], 4⟩).g.fd = some ⟨[1, 2, 3, 4], 2⟩ ∧
      (tx_callback ⟨some ⟨[1, 2, 3, 4], 2⟩, 0, TRANSCEIVER_MODE_TX, 0, false, 0, true⟩
        ⟨[9, 9, 9, 9, 9], 4⟩).buffer = [3, 4, 1, 2, 9] := by
  have h := repeat_refill ⟨some ⟨[1, 2, 3, 4], 2⟩, 0, TRANSCEIVER_MODE_TX, 0, false, 0, true⟩
    ⟨[9, 9, 9, 9, 9], 4⟩ [1, 2, 3, 4] 2 rfl rfl (by decide) (by decide)
  exact ⟨h.1, h.2.1, (h.2.2.2 (by decide)).1⟩

/-- C5 as stated fails under an active limit: with repeat enabled, 4 bytes left in
the limit, a request of 4 bytes and a 2-byte file, the first read returns 2 of the
4 bytes, the limit reaches 0, and the call returns -1 with the stream left at
offset 2 and positions 2 and 3 of the buffer not written. -/
theorem repeat_limit_stops_before_rewind :
    tx_callback (tx_start [1, 2] (some 4) true) ⟨[9, 9, 9, 9], 4⟩
      = ⟨-1, ⟨some ⟨[1, 2], 2⟩, 4, TRANSCEIVER_MODE_TX, 0, true, 0, true⟩, [1, 2, 9, 9],
          4, 2, [1, 2]⟩ := by
  decide

/-- C3 fails on a file shorter than the shortfall: with repeat enabled and no
limit, a 1-byte file `[7]` and a 3-byte buffer holding `[0, 0, 0]`, the call
returns 0 with the buffer `[7, 7, 0]`, while the cyclic repetition of the file
is `[7, 7, 7]`; the second `fread` obtained one byte of the two it asked for. -/
theorem repeat_short_file_stale_byte :
    (tx_callback (tx_start [7] none true) ⟨[0, 0, 0], 3⟩).buffer = [7, 7, 0] ∧
      (tx_callback (tx_start [7] none true) ⟨[0, 0, 0], 3⟩).ret = 0 ∧
      (tx_callback (tx_start [7] none true) ⟨[0, 0, 0], 3⟩).taken = [7, 7] ∧
      (List.range 3).map (fun k => [7].getD (k % [7].length) 0) = [7, 7, 7] := by
  decide

theorem cyclic_bytes_inside (data : List Nat) (p B : Nat) (h : p + B ≤ data.length) :
    (data.drop p).take B = cyclic_bytes data p B := by
  apply List.ext_getElem
  · simp [cyclic_bytes]; omega
  · intro j h1 h2
    simp only [cyclic_bytes, List.length_map, List.length_range] at h2
    simp only [cyclic_bytes, List.getElem_take, List.getElem_drop, List.getElem_map,
      List.getElem_range]
    rw [Nat.mod_eq_of_lt (by omega), List.getD_eq_getElem _ _ (by omega)]

theorem cyclic_bytes_wrap (data : List Nat) (p B : Nat) (hp : p ≤ data.length)
    (hshort : data.length - p < B) (hfill : B - (data.length - p) ≤ data.length) :
    data.drop p ++ data.take (B - (data.length - p)) = cyclic_bytes data p B := by
  apply List.ext_getElem
  · simp [cyclic_bytes]; omega
  · intro j h1 h2
    simp only [cyclic_bytes, List.length_map, List.length_range] at h2
    simp only [cyclic_bytes, List.getElem_map, List.getElem_range, List.getElem_append,
      List.length_drop, List.getElem_drop, List.getElem_take]
    split
    · rename_i hj
      rw [Nat.mod_eq_of_lt (by omega), List.getD_eq_getElem _ _ (by omega)]
    · rename_i hj
      have e : (p + j) % data.length = j - (data.length - p) := by
        rw [Nat.mod_eq_sub_mod (by omega), Nat.mod_eq_of_lt (by omega)]
        omega
      rw [List.getD_eq_getElem _ _ (by rw [e]; omega)]
      congr 1
      exact e.symm

theorem cyclic_bytes_congr (data : List Nat) (p q n : Nat)
    (h : p % data.length = q % data.length) : cyclic_bytes data p n = cyclic_bytes data q n := by
  unfold cyclic_bytes
  apply List.map_congr_left
  intro k _
  rw [Nat.add_mod p k, Nat.add_mod q k, h]

theorem cyclic_bytes_add (data : List Nat) (p a b : Nat) :
    cyclic_bytes data p (a + b) = cyclic_bytes data p a ++ cyclic_bytes data (p + a) b := by
  unfold cyclic_bytes
  rw [List.range_add, List.map_append, List.map_map]
  congr 1
  apply List.map_congr_left
  intro k _
  simp [Nat.add_assoc]

/-- One call with repeat enabled and no limit on a file at least as long as the
request: the buffer receives the next `B` bytes of the cyclic repetition. -/
theorem repeat_call_cyclic (g : Globals) (data : List Nat) (p B : Nat) (buf : List Nat)
    (hfd : g.fd = some ⟨data, p⟩) (hrep : g.repeat_ = true)
    (hlim : g.limit_num_samples = false) (hB : B ≤ data.length) (hp : p ≤ data.length) :
    (tx_callback g ⟨buf, B⟩).buffer = cyclic_bytes data p B ++ buf.drop B ∧
      ∃ q, (tx_callback g ⟨buf, B⟩).g.fd = some ⟨data, q⟩ ∧ q ≤ data.length ∧
        q % data.length = (p + B) % data.length := by
  by_cases hin : p + B ≤ data.length
  · have hlen : ((data.drop p).take B).length = B := by
      simp only [List.length_take, List.length_drop]; omega
    simp only [tx_callback, hfd, hlim, limit_step_unlimited, fread_full _ _ _ hin, hlen,
      store]
    simp only [Bool.false_and, Bool.false_eq_true, if_false, ne_eq, not_true_eq_false,
      List.take_zero, List.nil_append, Nat.zero_add]
    exact ⟨by rw [cyclic_bytes_inside _ _ _ hin], p + B, rfl, hin, rfl⟩
  · have hshort : data.length - p < B := by omega
    have hne : ¬ min B (data.length - p) = B := by omega
    have hmin : min B (data.length - p) = data.length - p := by omega
    have hmin2 : min (B - (data.length - p)) data.length = B - (data.length - p) := by omega
    have htake : List.take B (List.drop p data) = List.drop p data :=
      List.take_of_length_le (by simp; omega)
    simp only [tx_callback, hfd, hlim, hrep, limit_step_unlimited, fread, rewind, store,
      List.length_take, List.length_drop, List.drop_zero, hmin, hmin2, htake]
    simp only [Bool.false_and, Bool.false_eq_true, if_false, ne_eq, if_true, List.take_zero,
      List.nil_append, Nat.zero_add]
    have hsh : ¬ data.length - p = B := by omega
    simp only [hsh, not_false_eq_true, if_true]
    refine ⟨?_, B - (data.length - p), rfl, by omega, ?_⟩
    · rw [← cyclic_bytes_wrap data p B hp hshort (by omega)]
      rw [List.take_left' (by simp)]
      congr 1
      rw [List.drop_append_eq_append_drop, List.drop_of_length_le (by simp),
        List.nil_append, List.length_drop, List.drop_drop]
      congr 1
      omega
    · have e : p + B = B - (data.length - p) + data.length := by omega
      rw [e, Nat.add_mod_right]

/-- With repeat enabled, no limit and a file at least as long as the buffer, the
buffers produced by successive calls are the cyclic repetition of the file, byte
for byte. -/
theorem repeat_run_cyclic (data : List Nat) (B : Nat) (hB : B ≤ data.length) :
    ∀ (ts : List hackrf_transfer) (g : Globals) (p : Nat),
      g.fd = some ⟨data, p⟩ → g.repeat_ = true → g.limit_num_samples = false →
      p ≤ data.length → (∀ t ∈ ts, t.valid_length = B) →
      ((tx_run g ts).map (fun o => o.buffer.take B)).flatten
        = cyclic_bytes data p (ts.length * B) := by
  intro ts
  induction ts with
  | nil => intro g p _ _ _ _ _; simp [tx_run, cyclic_bytes]
  | cons t ts ih =>
    intro g p hfd hrep hlim hp hall
    obtain ⟨buf, vl⟩ := t
    have hvl : vl = B := hall ⟨buf, vl⟩ (by simp)
    subst hvl
    obtain ⟨c1, q, c2, c3, c4⟩ := repeat_call_cyclic g data p vl buf hfd hrep hlim hB hp
    obtain ⟨_, _, r2, r3⟩ := repeat_call g ⟨buf, vl⟩ (by rw [hfd]; rfl) hrep hlim
    have hcl : (cyclic_bytes data p vl).length = vl := by simp [cyclic_bytes]
    simp only [tx_run, List.map_cons, List.flatten_cons, List.length_cons]
    rw [ih _ q c2 r2 r3 c3 (fun t ht => hall t (by simp [ht])), c1, List.take_left' hcl,
      Nat.succ_mul, Nat.add_comm (ts.length * vl) vl, cyclic_bytes_add,
      cyclic_bytes_congr data q (p + vl) _ c4]

/-- The scenario of a 10-byte file with repeat and 4-byte buffers: the calls
deliver `[0..3]`, `[4..7]`, `[8, 9, 0, 1]`, `[2..5]` and each returns 0. -/
theorem repeat_scenario :
    (tx_run (tx_start [0, 1, 2, 3, 4, 5, 6, 7, 8, 9] none true)
        (List.replicate 4 ⟨[0, 0, 0, 0], 4⟩)).map (fun o => (o.ret, o.buffer))
      = [(0, [0, 1, 2, 3]), (0, [4, 5, 6, 7]), (0, [8, 9, 0, 1]), (0, [2, 3, 4, 5])] := by
  decide

/-- From the start of the file: the first `n` buffers hold the first `n * B`
bytes of the cyclic repetition, byte `k` being file byte `k mod L`, whenever the
file is at least as long as the buffer. -/
theorem repeat_cyclic_of_buffer_le_file (data : List Nat) (B : Nat) (hB : B ≤ data.length)
    (ts : List hackrf_transfer) (hall : ∀ t ∈ ts, t.valid_length = B) :
    ((tx_run (tx_start data none true) ts).map (fun o => o.buffer.take B)).flatten
      = (List.range (ts.length * B)).map (fun k => data.getD (k % data.length) 0) := by
  have h := repeat_run_cyclic data B hB ts (tx_start data none true) 0 rfl rfl rfl
    (Nat.zero_le _) hall
  simpa [cyclic_bytes] using h

/-! ## Argument checks -/

theorem main_checks_returned (o : Options) :
    main_checks o = Checked.calls_hackrf_init ∨ main_checks o = Checked.returned EXIT_FAILURE := by
  unfold main_checks
  split_ifs
  all_goals simp

theorem main_checks_passes_iff (o : Options) :
    main_checks o = Checked.calls_hackrf_init ↔
      o.freq_hz ≤ FREQ_MAX_HZ ∧ (o.amp = true → o.amp_enable ≤ 1) ∧
        (o.antenna = true → o.antenna_enable ≤ 1) ∧ o.path ≠ none := by
  unfold main_checks
  split_ifs with h1 h2 h3 h4
  all_goals simp_all

/-- C9 fails below the range: with `-f -1 -t tx.bin` (`freq_hz = -1`, outside
`[FREQ_MIN_HZ, FREQ_MAX_HZ]`) the checks of `main` do not return; `main` goes on
to `hackrf_init()` and later hands `hackrf_set_freq` the value `2^64 - 1`. -/
theorem negative_frequency_accepted :
    main_checks ⟨-1, false, 0, false, 0, some "tx.bin"⟩ = Checked.calls_hackrf_init ∧
      ((-1 : Int) < FREQ_MIN_HZ) ∧ set_freq_arg (-1) = 18446744073709551615 := by
  decide

/-! ## `u64toa` -/

theorem dec_digits_step (sum : Nat) :
    dec_digits sum = (sum % 10) :: (if sum / 10 = 0 then [] else dec_digits (sum / 10)) := by
  unfold dec_digits
  by_cases h0 : sum = 0
  · subst h0; simp
  · rw [if_neg h0, Nat.digits_def' (by norm_num) (Nat.pos_of_ne_zero h0)]
    by_cases h1 : sum / 10 = 0
    · simp [h1]
    · simp [h1]

theorem dec_digits_length_pos (sum : Nat) : 0 < (dec_digits sum).length := by
  rw [dec_digits_step]; simp

theorem u64toa_loop_spec :
    ∀ (fuel sum pos : Nat) (data : List Nat),
      (dec_digits sum).length ≤ fuel →
      pos + (dec_digits sum).length ≤ U64TOA_MAX_DIGIT →
      pos + (dec_digits sum).length ≤ data.length →
      u64toa_loop fuel sum pos data
        = (0, pos + (dec_digits sum).length,
            data.take pos ++ (dec_digits sum).map (fun d => d + 48)
              ++ data.drop (pos + (dec_digits sum).length)) := by
  intro fuel
  induction fuel with
  | zero =>
    intro sum pos data h
    have := dec_digits_length_pos sum
    omega
  | succ fuel ih =>
    intro sum pos data hf hmax hlen
    rw [dec_digits_step] at hf hmax hlen ⊢
    unfold u64toa_loop
    simp only [BASE]
    by_cases h1 : sum / 10 = 0
    · simp only [h1, if_true, List.length_cons, List.length_nil] at hf hmax hlen ⊢
      have hp : pos < data.length := by omega
      simp only [Nat.lt_irrefl, false_and, if_false, List.map_cons, List.map_nil]
      rw [List.set_eq_take_append_cons_drop, if_pos hp]
      simp
    · simp only [h1, if_false, List.length_cons] at hf hmax hlen ⊢
      have hl := dec_digits_length_pos (sum / 10)
      have hp : pos < data.length := by omega
      have hc : sum / 10 > 0 ∧ pos + 1 < U64TOA_MAX_DIGIT := by
        constructor
        · omega
        · unfold U64TOA_MAX_DIGIT at hmax ⊢; omega
      rw [if_pos hc, ih (sum / 10) (pos + 1) (data.set pos (sum % 10 + 48)) (by omega)
        (by omega) (by simp; omega)]
      have e1 : pos + 1 + (dec_digits (sum / 10)).length
          = pos + ((dec_digits (sum / 10)).length + 1) := by omega
      have e2 : List.take (pos + 1) (data.set pos (sum % 10 + 48))
          = List.take pos data ++ [sum % 10 + 48] := by
        rw [List.set_eq_take_append_cons_drop, if_pos hp]
        rw [List.take_append_eq_append_take]
        simp [List.take_take, Nat.min_eq_left hp.le]
      rw [e1, List.drop_set_of_lt _ _ (by omega), e2]
      simp

/-! ## `stringrev` -/

theorem getD_set_zero (l : List Nat) (i j x : Nat) :
    (l.set i x).getD j 0 = if i = j ∧ i < l.length then x else l.getD j 0 := by
  simp only [List.getD_eq_getElem?_getD, List.getElem?_set]
  by_cases h : i = j
  · subst h
    by_cases h2 : i < l.length
    · simp [h2]
    · rw [List.getElem?_eq_none (Nat.le_of_not_lt h2)]
      simp [h2]
  · simp [h]

theorem ext_getD_zero (l1 l2 : List Nat) (hlen : l1.length = l2.length)
    (h : ∀ i, l1.getD i 0 = l2.getD i 0) : l1 = l2 := by
  apply List.ext_getElem hlen
  intro i h1 h2
  have := h i
  rwa [List.getD_eq_getElem _ _ h1, List.getD_eq_getElem _ _ h2] at this

theorem xor_back (a b : Nat) : b ^^^ (a ^^^ b) = a := by
  rw [Nat.xor_comm a b, Nat.xor_cancel_left]

theorem xor_forth (a b : Nat) : (a ^^^ b) ^^^ a = b := by
  rw [Nat.xor_comm (a ^^^ b) a, Nat.xor_cancel_left]

theorem xor_swap_length (str : List Nat) (p1 p2 : Nat) :
    (xor_swap str p1 p2).length = str.length := by
  simp [xor_swap]

/-- The three exclusive-or assignments exchange the two characters. -/
theorem xor_swap_getD (str : List Nat) (p1 p2 : Nat) (h12 : p1 < p2) (h2 : p2 < str.length) :
    ∀ i, (xor_swap str p1 p2).getD i 0
      = if i = p1 then str.getD p2 0 else if i = p2 then str.getD p1 0 else str.getD i 0 := by
  intro i
  have h1 : p1 < str.length := by omega
  have hne : ¬ p1 = p2 := by omega
  have hne2 : ¬ p2 = p1 := by omega
  simp only [xor_swap, getD_set_zero, List.length_set, h1, h2, hne, hne2, and_true, and_self,
    if_true, if_false, false_and, xor_back, xor_forth]
  by_cases hi1 : i = p1
  · subst hi1
    simp only [if_true]
  · have hi1' : ¬ p1 = i := fun h => hi1 h.symm
    simp only [hi1, hi1', if_false]
    by_cases hi2 : i = p2
    · subst hi2
      simp only [if_true]
    · have hi2' : ¬ p2 = i := fun h => hi2 h.symm
      simp only [hi2, hi2', if_false]

theorem stringrev_loop_spec :
    ∀ (fuel : Nat) (str : List Nat) (p1 p2 : Nat), p2 < str.length → p2 - p1 ≤ 2 * fuel →
      (stringrev_loop fuel str p1 p2).length = str.length ∧
        ∀ i, (stringrev_loop fuel str p1 p2).getD i 0
          = if p1 ≤ i ∧ i ≤ p2 then str.getD (p1 + p2 - i) 0 else str.getD i 0 := by
  intro fuel
  induction fuel with
  | zero =>
    intro str p1 p2 _ hf
    refine ⟨rfl, fun i => ?_⟩
    simp only [stringrev_loop]
    split
    · rename_i h
      have : p1 + p2 - i = i := by omega
      rw [this]
    · rfl
  | succ fuel ih =>
    intro str p1 p2 h2 hf
    unfold stringrev_loop
    by_cases h12 : p2 > p1
    · simp only [h12, if_true]
      have hsw := xor_swap_getD str p1 p2 h12 h2
      obtain ⟨l1, l2⟩ := ih (xor_swap str p1 p2) (p1 + 1) (p2 - 1)
        (by rw [xor_swap_length]; omega) (by omega)
      refine ⟨by rw [l1, xor_swap_length], fun i => ?_⟩
      rw [l2, hsw, hsw]
      by_cases c1 : p1 + 1 ≤ i ∧ i ≤ p2 - 1
      · have a1 : ¬ p1 + 1 + (p2 - 1) - i = p1 := by omega
        have a2 : ¬ p1 + 1 + (p2 - 1) - i = p2 := by omega
        have a3 : p1 ≤ i ∧ i ≤ p2 := by omega
        have a4 : p1 + 1 + (p2 - 1) - i = p1 + p2 - i := by omega
        rw [a4] at a1 a2
        simp only [c1, a1, a2, a3, and_self, if_true, if_false, a4]
      · simp only [c1, if_false]
        by_cases c2 : i = p1
        · subst c2
          have a3 : i ≤ i ∧ i ≤ p2 := by omega
          have a4 : i + p2 - i = p2 := by omega
          simp only [if_true, a3, and_self, a4]
        · by_cases c3 : i = p2
          · subst c3
            have a3 : p1 ≤ i ∧ i ≤ i := by omega
            have a4 : p1 + i - i = p1 := by omega
            simp only [c2, if_false, if_true, a3, and_self, a4]
          · have a3 : ¬ (p1 ≤ i ∧ i ≤ p2) := by omega
            simp only [c2, c3, if_false, a3]
    · simp only [h12, if_false, true_and]
      intro i
      split
      · rename_i h
        have : p1 + p2 - i = i := by omega
        rw [this]
      · rfl

theorem takeWhile_nonzero (chars rest : List Nat) (hnz : ∀ c ∈ chars, c ≠ 0) :
    (chars ++ 0 :: rest).takeWhile (fun c => c != 0) = chars := by
  rw [List.takeWhile_append_of_pos (by simpa using hnz)]
  simp

/-- On a buffer holding a string without NUL followed by a NUL, `stringrev`
reverses the string in place and leaves the rest of the buffer as it was. -/
theorem stringrev_spec (chars rest : List Nat) (hnz : ∀ c ∈ chars, c ≠ 0) :
    stringrev (chars ++ 0 :: rest) = chars.reverse ++ 0 :: rest := by
  match chars, hnz with
  | [], _ => simp [stringrev]
  | c :: cs, hnz =>
    have hlen : strlen ((c :: cs) ++ 0 :: rest) = (c :: cs).length := by
      unfold strlen; rw [takeWhile_nonzero (c :: cs) rest hnz]
    have hpos : 0 < (c :: cs).length := by simp
    have hfirst : ¬ ((c :: cs) ++ 0 :: rest).getD 0 0 = 0 := by
      simpa using hnz c (by simp)
    unfold stringrev
    rw [if_neg hfirst, hlen]
    generalize c :: cs = chars at *
    obtain ⟨l1, l2⟩ := stringrev_loop_spec chars.length (chars ++ 0 :: rest) 0
      (chars.length - 1) (by simp; omega) (by omega)
    apply ext_getD_zero
    · rw [l1]; simp
    · intro i
      rw [l2]
      simp only [List.getD_eq_getElem?_getD, List.getElem?_append, List.length_reverse]
      by_cases hi : i < chars.length
      · have a1 : 0 ≤ i ∧ i ≤ chars.length - 1 := by omega
        have a2 : 0 + (chars.length - 1) - i < chars.length := by omega
        simp only [a1, and_self, if_true, a2, hi, List.getElem?_reverse hi]
        congr 2
        omega
      · have a1 : ¬ (0 ≤ i ∧ i ≤ chars.length - 1) := by omega
        simp only [a1, if_false, hi]

theorem dec_digits_lt (val : Nat) : ∀ d ∈ dec_digits val, d < 10 := by
  intro d hd
  unfold dec_digits at hd
  split at hd
  · simp at hd; omega
  · exact Nat.digits_lt_base (by norm_num) hd

theorem dec_digits_length_le (val : Nat) (hval : val < 2 ^ 64) :
    (dec_digits val).length ≤ 20 := by
  unfold dec_digits
  split
  · simp
  · rename_i h0
    have h := Nat.base_pow_length_digits_le 10 val (by norm_num) h0
    have h2 : 10 ^ (Nat.digits 10 val).length < 10 ^ 21 := by
      refine lt_of_le_of_lt h ?_
      norm_num at hval ⊢
      omega
    have := (Nat.pow_lt_pow_iff_right (by norm_num : 1 < 10)).mp h2
    omega

theorem read_decimal_digits (ds : List Nat) :
    read_decimal (ds.reverse.map (fun d => d + 48)) = Nat.ofDigits 10 ds := by
  induction ds with
  | nil => simp [read_decimal]
  | cons d ds ih =>
    unfold read_decimal at ih ⊢
    rw [List.reverse_cons, List.map_append, List.foldl_append, ih]
    simp only [List.map_cons, List.map_nil, List.foldl_cons, List.foldl_nil,
      Nat.ofDigits_cons]
    omega

theorem dec_digits_ofDigits (val : Nat) : Nat.ofDigits 10 (dec_digits val) = val := by
  unfold dec_digits
  split
  · rename_i h; simp [h]
  · exact Nat.ofDigits_digits 10 val

/-- The buffer `u64toa` returns: the digits, most significant first, a NUL, and
the bytes of the buffer behind it untouched. -/
theorem u64toa_buffer (val : Nat) (data : List Nat) (hval : val < 2 ^ 64)
    (hdata : data.length = U64TOA_MAX_DIGIT + 1) :
    u64toa val data
      = some ((dec_digits val).reverse.map (fun d => d + 48)
          ++ 0 :: data.drop ((dec_digits val).length + 1)) := by
  have hl := dec_digits_length_le val hval
  have hloop := u64toa_loop_spec U64TOA_MAX_DIGIT val 0 data
    (by unfold U64TOA_MAX_DIGIT; omega) (by unfold U64TOA_MAX_DIGIT; omega)
    (by rw [hdata]; unfold U64TOA_MAX_DIGIT; omega)
  unfold u64toa
  rw [hloop]
  simp only [Nat.zero_add, List.take_zero, List.nil_append, gt_iff_lt, Nat.lt_irrefl,
    and_false, if_false]
  have hset : (List.map (fun d => d + 48) (dec_digits val)
        ++ List.drop (dec_digits val).length data).set (dec_digits val).length 0
      = List.map (fun d => d + 48) (dec_digits val)
        ++ 0 :: List.drop ((dec_digits val).length + 1) data := by
    rw [List.set_append_right _ _ (by simp)]
    simp only [List.length_map, Nat.sub_self]
    have hlt : (dec_digits val).length < data.length := by
      rw [hdata]; unfold U64TOA_MAX_DIGIT; omega
    rw [List.drop_eq_getElem_cons hlt, List.set_cons_zero]
  rw [hset, stringrev_spec _ _ (by intro c hc; simp at hc; obtain ⟨d, _, rfl⟩ := hc; omega)]
  simp [List.map_reverse]

theorem digitChar_toNat (d : Nat) (h : d < 10) : (Nat.digitChar d).toNat = d + 48 := by
  interval_cases d <;> rfl

theorem toDigitsCore_dec_digits :
    ∀ (fuel n : Nat) (acc : List Char), n < fuel →
      Nat.toDigitsCore 10 fuel n acc
        = (dec_digits n).reverse.map Nat.digitChar ++ acc := by
  intro fuel
  induction fuel with
  | zero => intro n acc h; omega
  | succ fuel ih =>
    intro n acc h
    rw [dec_digits_step]
    unfold Nat.toDigitsCore
    by_cases h1 : n / 10 = 0
    · simp [h1]
    · simp only [h1, if_false]
      rw [ih (n / 10) _ (by omega)]
      simp

theorem repr_dec_digits (val : Nat) :
    (Nat.repr val).toList.map Char.toNat = (dec_digits val).reverse.map (fun d => d + 48) := by
  have h : (Nat.repr val).toList = (dec_digits val).reverse.map Nat.digitChar := by
    unfold Nat.repr Nat.toDigits
    rw [toDigitsCore_dec_digits _ _ _ (Nat.lt_succ_self val)]
    simp [List.asString]
  rw [h, List.map_map]
  apply List.map_congr_left
  intro d hd
  exact digitChar_toNat d (dec_digits_lt val d (by simpa using hd))

/-- C10. For every unsigned 64-bit `val` and every 32-byte buffer, `u64toa` does
not return `NULL`, and the NUL-terminated string it returns is the base-10
representation of `val`: the decimal digits of `val`, most significant first
(`"0"` for 0), the same characters as `Nat.repr val`, all in `'0' .. '9'`, without
a leading zero for `val ≠ 0`, and read back as a decimal number it is `val`;
`stringrev` reverses a NUL-terminated string in place like the list reverse. -/
theorem u64toa_decimal (val : Nat) (data : List Nat) (hval : val < 2 ^ 64)
    (hdata : data.length = U64TOA_MAX_DIGIT + 1) :
    ∃ str, u64toa val data = some str ∧
      c_str str = (if val = 0 then [48]
                   else (Nat.digits 10 val).reverse.map (fun d => d + 48)) ∧
      c_str str = (Nat.repr val).toList.map Char.toNat ∧
      (∀ c ∈ c_str str, 48 ≤ c ∧ c ≤ 57) ∧
      (val ≠ 0 → (c_str str).head? ≠ some 48) ∧
      read_decimal (c_str str) = val ∧
      str.length = data.length ∧
      (∀ chars rest : List Nat, (∀ c ∈ chars, c ≠ 0) →
        stringrev (chars ++ 0 :: rest) = chars.reverse ++ 0 :: rest) := by
  have hl := dec_digits_length_le val hval
  have hnz : ∀ c ∈ (dec_digits val).reverse.map (fun d => d + 48), c ≠ 0 := by
    intro c hc; simp at hc; obtain ⟨d, _, rfl⟩ := hc; omega
  have hc : c_str ((dec_digits val).reverse.map (fun d => d + 48)
      ++ 0 :: data.drop ((dec_digits val).length + 1))
      = (dec_digits val).reverse.map (fun d => d + 48) := by
    unfold c_str; exact takeWhile_nonzero _ _ hnz
  refine ⟨_, u64toa_buffer val data hval hdata, ?_, ?_, ?_, ?_, ?_, ?_, stringrev_spec⟩
  · rw [hc]
    unfold dec_digits
    split <;> simp
  · rw [hc, repr_dec_digits]
  · rw [hc]
    intro c hc1
    simp only [List.mem_map, List.mem_reverse] at hc1
    obtain ⟨d, hd, rfl⟩ := hc1
    have := dec_digits_lt val d hd
    omega
  · intro h0
    rw [hc]
    have hd : dec_digits val = Nat.digits 10 val := by unfold dec_digits; rw [if_neg h0]
    have hne : Nat.digits 10 val ≠ [] := Nat.digits_ne_nil_iff_ne_zero.mpr h0
    have hlast := Nat.getLast_digit_ne_zero 10 h0
    rw [hd, List.head?_map, List.head?_reverse, List.getLast?_eq_getLast _ hne]
    simp only [Option.map_some', ne_eq, Option.some.injEq]
    omega
  · rw [hc, read_decimal_digits, dec_digits_ofDigits]
  · simp only [List.length_append, List.length_map, List.length_reverse, List.length_cons,
      List.length_drop]
    rw [hdata]
    unfold U64TOA_MAX_DIGIT
    omega

/-- C10 at the largest 64-bit value, on a zeroed buffer. -/
theorem u64toa_decimal_witness :
    ∃ str, u64toa 18446744073709551615 (List.replicate 32 0) = some str ∧
      c_str str = (if 18446744073709551615 = 0 then [48]
                   else (Nat.digits 10 18446744073709551615).reverse.map (fun d => d + 48)) ∧
      c_str str = (Nat.repr 18446744073709551615).toList.map Char.toNat ∧
      (∀ c ∈ c_str str, 48 ≤ c ∧ c ≤ 57) ∧
      (18446744073709551615 ≠ 0 → (c_str str).head? ≠ some 48) ∧
      read_decimal (c_str str) = 18446744073709551615 ∧
      str.length = (List.replicate 32 0).length ∧
      (∀ chars rest : List Nat, (∀ c ∈ chars, c ≠ 0) →
        stringrev (chars ++ 0 :: rest) = chars.reverse ++ 0 :: rest) :=
  u64toa_decimal 18446744073709551615 (List.replicate 32 0) (by norm_num) (by decide)

end HackrfTx


